import Mathlib

/-!
Verification of the TPEP integer analyzer (`tpep_theory.py`).

The analyzer takes one integer `n ≥ 1`, computes its prime factorization by
trial division, derives Euler's totient `phi` and the divisor sum `sigma`
from the factorization, and exposes four real-valued ratios together with a
report that classifies `n` against the "TPEP stability" threshold 4.0.

The Python dictionary `factors` preserves insertion order, so it is embedded
as an association list `List (ℕ × ℕ)` of (prime, exponent) pairs; the
dictionary update `factors[d] = factors.get(d, 0) + 1` becomes `dictAdd`.
The two `while` loops of `_get_prime_factors` become the well-founded
recursions `innerLoop` and `outerLoop`.  Real-valued (float) division is
embedded as division of rationals, and the fallible constructor and the
division in `tpep_ratio` return `Except`.
-/

namespace TPEP

/-- One dictionary update `factors[p] = factors.get(p, 0) + 1` on the
insertion-ordered association list: bump the exponent if the key `p` is
present, otherwise append `(p, 1)` at the end. -/
def dictAdd (fs : List (ℕ × ℕ)) (p : ℕ) : List (ℕ × ℕ) :=
  if fs.any (fun q => q.1 = p) then
    fs.map (fun q => if q.1 = p then (q.1, q.2 + 1) else q)
  else fs ++ [(p, 1)]

/-- The inner loop of `_get_prime_factors`:
`while temp % d == 0: factors[d] = factors.get(d, 0) + 1; temp //= d`.
The conjuncts `2 ≤ d` and `0 < temp` record invariants that hold at every
call site of the loop (the divisor starts at 2 and `temp` starts at `n ≥ 1`
and is only ever divided exactly); they make the recursion well-founded. -/
def innerLoop (d temp : ℕ) (fs : List (ℕ × ℕ)) : List (ℕ × ℕ) × ℕ :=
  if h : 2 ≤ d ∧ 0 < temp ∧ temp % d = 0 then
    innerLoop d (temp / d) (dictAdd fs d)
  else (fs, temp)
termination_by temp
decreasing_by exact Nat.div_lt_self h.2.1 h.1

/-- The value `temp` never increases across the inner division loop. -/
theorem innerLoop_snd_le (d temp : ℕ) (fs : List (ℕ × ℕ)) :
    (innerLoop d temp fs).2 ≤ temp := by
  induction temp using Nat.strong_induction_on generalizing fs with
  | _ temp ih =>
    rw [innerLoop]
    split
    · next h =>
      exact le_trans (ih _ (Nat.div_lt_self h.2.1 h.1) _) (Nat.div_le_self _ _)
    · exact le_refl _

/-- The outer loop of `_get_prime_factors`:
`while d * d <= temp: (inner loop); d += 1`. -/
def outerLoop (d temp : ℕ) (fs : List (ℕ × ℕ)) : List (ℕ × ℕ) × ℕ :=
  if h : d * d ≤ temp then
    outerLoop (d + 1) (innerLoop d temp fs).2 (innerLoop d temp fs).1
  else (fs, temp)
termination_by temp + 1 - d
decreasing_by
  have hr := innerLoop_snd_le d temp fs
  have hdd : d ≤ d * d := by
    rcases Nat.eq_zero_or_pos d with h0 | h0
    · simp [h0]
    · exact Nat.le_mul_of_pos_left d h0
  have hdt : d ≤ temp := le_trans hdd h
  omega

/-- Embedding of `_get_prime_factors(n)`: trial division starting at `d = 2`, followed by
`if temp > 1: factors[temp] = factors.get(temp, 0) + 1`. -/
def get_prime_factors (n : ℕ) : List (ℕ × ℕ) :=
  if 1 < (outerLoop 2 n []).2 then
    dictAdd (outerLoop 2 n []).1 (outerLoop 2 n []).2
  else (outerLoop 2 n []).1

/-- Embedding of `_calculate_phi`: `result = n; for p in factors.keys(): result = result * (p - 1) // p`.
Integer (floor) division, exactly as in the source. -/
def calculate_phi (n : ℕ) : ℕ :=
  ((get_prime_factors n).map Prod.fst).foldl (fun result p => result * (p - 1) / p) n

/-- Embedding of `_calculate_sigma`: `total = 1; for p, a in factors.items(): total *= (p**(a+1) - 1) // (p - 1)`. -/
def calculate_sigma (n : ℕ) : ℕ :=
  (get_prime_factors n).foldl
    (fun total pa => total * ((pa.1 ^ (pa.2 + 1) - 1) / (pa.1 - 1))) 1

/-- The analyzer instance: input `n` plus the three values cached by
`__init__` (`_factors`, `phi_val`, `sigma_val`). -/
structure TPEPAnalyzer where
  n : ℤ
  factors : List (ℕ × ℕ)
  phi_val : ℕ
  sigma_val : ℕ

/-- The successful branch of `__init__` for a nonnegative input `m`:
eagerly compute and cache `factors`, `phi_val`, `sigma_val`. -/
def TPEPAnalyzer.make (m : ℕ) : TPEPAnalyzer :=
  { n := (m : ℤ)
    factors := get_prime_factors m
    phi_val := calculate_phi m
    sigma_val := calculate_sigma m }

/-- Embedding of `__init__(self, n)`: raise `ValueError("TPEP only applies to positive
integers.")` when `n < 1`, otherwise build the fully computed instance. -/
def TPEPAnalyzer.init (n : ℤ) : Except String TPEPAnalyzer :=
  if n < 1 then Except.error "TPEP only applies to positive integers."
  else Except.ok (TPEPAnalyzer.make n.toNat)

/-- Property `totient_density`: `phi_val / n` (real-valued division, embedded in ℚ). -/
def TPEPAnalyzer.totient_density (x : TPEPAnalyzer) : ℚ :=
  (x.phi_val : ℚ) / (x.n : ℚ)

/-- Property `perfection_ratio`: `sigma_val / n` (real-valued division, embedded in ℚ). -/
def TPEPAnalyzer.perfection_ratio (x : TPEPAnalyzer) : ℚ :=
  (x.sigma_val : ℚ) / (x.n : ℚ)

/-- Property `tpep_ratio`: `sigma_val / phi_val`; division by a zero totient is the
fallible path (Python raises `ZeroDivisionError`), embedded as `Except`. -/
def TPEPAnalyzer.tpep_ratio (x : TPEPAnalyzer) : Except String ℚ :=
  if x.phi_val = 0 then Except.error "DivisionUndefined"
  else Except.ok ((x.sigma_val : ℚ) / (x.phi_val : ℚ))

/-- Property `mirror_gap`: `perfection_ratio + totient_density`. -/
def TPEPAnalyzer.mirror_gap (x : TPEPAnalyzer) : ℚ :=
  x.perfection_ratio + x.totient_density

/-- Embedding of `math.isclose(a, b, rel_tol=1e-9)` with the default `abs_tol = 0`:
`|a - b| ≤ rel_tol * max(|a|, |b|)`, on the rational embedding of the
float values. -/
def isClose (a b : ℚ) : Bool :=
  decide (|a - b| ≤ 1 / 1000000000 * max |a| |b|)

/-- The classification computed inside `report()`:
`"PERFECT (Stable)"` when `math.isclose(self.tpep_ratio, 4.0, rel_tol=1e-9)`,
else `"IMPERFECT (Unstable)"`; fails if `tpep_ratio` does. -/
def TPEPAnalyzer.status (x : TPEPAnalyzer) : Except String String :=
  x.tpep_ratio.map (fun r =>
    if isClose r 4 then "PERFECT (Stable)" else "IMPERFECT (Unstable)")

/-- The parity label computed inside `report()`. -/
def TPEPAnalyzer.parity (x : TPEPAnalyzer) : String :=
  if x.n % 2 ≠ 0 then "ODD" else "EVEN"

/-- Product of `p ^ exponent` over all entries of a factor list. -/
def prodPow (fs : List (ℕ × ℕ)) : ℕ :=
  (fs.map (fun pa => pa.1 ^ pa.2)).prod

/-- Checks that every integer division performed by the `_calculate_phi`
loop is exact: at each step `result * (p - 1)` must be divisible by `p`. -/
def phiStepsExact : List ℕ → ℕ → Bool
  | [], _ => true
  | p :: ps, r => (r * (p - 1)) % p == 0 && phiStepsExact ps (r * (p - 1) / p)

/-- Spec-side definition (glossary): the totient as the count of integers
in `[1, n]` coprime to `n`. -/
def coprimeCount (n : ℕ) : ℕ :=
  ((Finset.Icc 1 n).filter (fun k => Nat.gcd k n = 1)).card

/-- Spec-side definition (glossary): the sum of all positive divisors of
`n`, including `n` itself. -/
def sigmaSum (n : ℕ) : ℕ :=
  ∑ d ∈ n.divisors, d

/-! ### Unfolding equations for the two trial-division loops -/

theorem innerLoop_step {d temp : ℕ} (fs : List (ℕ × ℕ)) (h1 : 2 ≤ d) (h2 : 0 < temp)
    (h3 : temp % d = 0) : innerLoop d temp fs = innerLoop d (temp / d) (dictAdd fs d) := by
  rw [innerLoop]; rw [dif_pos ⟨h1, h2, h3⟩]

theorem innerLoop_exit {d temp : ℕ} (fs : List (ℕ × ℕ)) (h3 : temp % d ≠ 0) :
    innerLoop d temp fs = (fs, temp) := by
  rw [innerLoop]; rw [dif_neg]
  intro h
  exact h3 h.2.2

theorem outerLoop_step {d temp : ℕ} (fs : List (ℕ × ℕ)) (h : d * d ≤ temp) :
    outerLoop d temp fs = outerLoop (d + 1) (innerLoop d temp fs).2 (innerLoop d temp fs).1 := by
  rw [outerLoop]; rw [dif_pos h]

theorem outerLoop_exit {d temp : ℕ} (fs : List (ℕ × ℕ)) (h : ¬ d * d ≤ temp) :
    outerLoop d temp fs = (fs, temp) := by
  rw [outerLoop]; rw [dif_neg h]

/-! ### Association-list dictionary lemmas -/

theorem map_update_of_not_mem {fs : List (ℕ × ℕ)} {p : ℕ} (h : p ∉ fs.map Prod.fst) :
    fs.map (fun q => if q.1 = p then (q.1, q.2 + 1) else q) = fs := by
  induction fs with
  | nil => rfl
  | cons q t ih =>
    rw [List.map_cons, List.mem_cons] at h
    push_neg at h
    rw [List.map_cons, if_neg (fun e => h.1 e.symm), ih h.2]

theorem dictAdd_of_not_mem {fs : List (ℕ × ℕ)} {p : ℕ} (h : p ∉ fs.map Prod.fst) :
    dictAdd fs p = fs ++ [(p, 1)] := by
  have hfalse : fs.any (fun q => q.1 = p) = false := by
    rw [List.any_eq_false]
    intro q hq
    simp only [decide_eq_true_eq]
    exact fun hqp => h (List.mem_map.2 ⟨q, hq, hqp⟩)
  rw [dictAdd, hfalse]
  simp

theorem dictAdd_of_mem {fs : List (ℕ × ℕ)} {p : ℕ} (h : p ∈ fs.map Prod.fst) :
    dictAdd fs p = fs.map (fun q => if q.1 = p then (q.1, q.2 + 1) else q) := by
  obtain ⟨q, hq, hqp⟩ := List.mem_map.1 h
  have htrue : fs.any (fun q => q.1 = p) = true := by
    rw [List.any_eq_true]
    exact ⟨q, hq, by simp [hqp]⟩
  rw [dictAdd, htrue]
  simp

theorem keys_map_update (fs : List (ℕ × ℕ)) (p : ℕ) :
    (fs.map (fun q => if q.1 = p then (q.1, q.2 + 1) else q)).map Prod.fst
      = fs.map Prod.fst := by
  induction fs with
  | nil => rfl
  | cons q t ih =>
    by_cases h : q.1 = p <;> simp [h, ih]

theorem prodPow_cons (pa : ℕ × ℕ) (fs : List (ℕ × ℕ)) :
    prodPow (pa :: fs) = pa.1 ^ pa.2 * prodPow fs := by
  simp [prodPow]

theorem prodPow_append_single (fs : List (ℕ × ℕ)) (p a : ℕ) :
    prodPow (fs ++ [(p, a)]) = prodPow fs * p ^ a := by
  simp [prodPow]

theorem prodPow_map_update {fs : List (ℕ × ℕ)} {p : ℕ}
    (hnd : (fs.map Prod.fst).Nodup) (hm : p ∈ fs.map Prod.fst) :
    prodPow (fs.map (fun q => if q.1 = p then (q.1, q.2 + 1) else q))
      = p * prodPow fs := by
  induction fs with
  | nil => simp at hm
  | cons q t ih =>
    rw [List.map_cons, List.nodup_cons] at hnd
    rw [List.map_cons, List.mem_cons] at hm
    by_cases hq : q.1 = p
    · have hpt : p ∉ t.map Prod.fst := hq ▸ hnd.1
      rw [List.map_cons, if_pos hq, map_update_of_not_mem hpt, prodPow_cons,
        prodPow_cons, hq, pow_succ]
      ring
    · have hpt : p ∈ t.map Prod.fst := hm.resolve_left (fun e => hq e.symm)
      rw [List.map_cons, if_neg hq, prodPow_cons, ih hnd.2 hpt, prodPow_cons]
      ring

theorem prodPow_dictAdd {fs : List (ℕ × ℕ)} {p : ℕ}
    (hnd : (fs.map Prod.fst).Nodup) :
    prodPow (dictAdd fs p) = p * prodPow fs := by
  by_cases hm : p ∈ fs.map Prod.fst
  · rw [dictAdd_of_mem hm]
    exact prodPow_map_update hnd hm
  · rw [dictAdd_of_not_mem hm, prodPow_append_single, pow_one, mul_comm]

theorem keys_dictAdd_nodup {fs : List (ℕ × ℕ)} {p : ℕ}
    (hnd : (fs.map Prod.fst).Nodup) :
    ((dictAdd fs p).map Prod.fst).Nodup := by
  by_cases hm : p ∈ fs.map Prod.fst
  · rw [dictAdd_of_mem hm, keys_map_update]
    exact hnd
  · rw [dictAdd_of_not_mem hm, List.map_append]
    simp only [List.map_cons, List.map_nil]
    rw [List.nodup_append]
    refine ⟨hnd, List.nodup_singleton p, fun a ha hp => hm ?_⟩
    rw [List.mem_singleton.1 hp] at ha
    exact ha

theorem mem_dictAdd {fs : List (ℕ × ℕ)} {p : ℕ} {pa : ℕ × ℕ}
    (h : pa ∈ dictAdd fs p) : pa ∈ fs ∨ pa.1 = p := by
  by_cases hm : p ∈ fs.map Prod.fst
  · rw [dictAdd_of_mem hm] at h
    obtain ⟨q, hq, rfl⟩ := List.mem_map.1 h
    by_cases hqp : q.1 = p
    · right
      rw [if_pos hqp]
      exact hqp
    · left
      rw [if_neg hqp]
      exact hq
  · rw [dictAdd_of_not_mem hm, List.mem_append] at h
    rcases h with h | h
    · exact Or.inl h
    · right
      rw [List.mem_singleton.1 h]

theorem dictAdd_exp {fs : List (ℕ × ℕ)} {p : ℕ}
    (h : ∀ pa ∈ fs, 1 ≤ pa.2) : ∀ pa ∈ dictAdd fs p, 1 ≤ pa.2 := by
  intro pa hpa
  by_cases hm : p ∈ fs.map Prod.fst
  · rw [dictAdd_of_mem hm] at hpa
    obtain ⟨q, hq, rfl⟩ := List.mem_map.1 hpa
    by_cases hqp : q.1 = p
    · rw [if_pos hqp]
      omega
    · rw [if_neg hqp]
      exact h q hq
  · rw [dictAdd_of_not_mem hm, List.mem_append] at hpa
    rcases hpa with hpa | hpa
    · exact h pa hpa
    · rw [List.mem_singleton.1 hpa]

/-! ### Invariants of the inner division loop -/

theorem innerLoop_inv (d : ℕ) (hd : 2 ≤ d) :
    ∀ temp : ℕ, ∀ fs : List (ℕ × ℕ), 0 < temp →
      0 < (innerLoop d temp fs).2 ∧
      (innerLoop d temp fs).2 ∣ temp ∧
      ¬ d ∣ (innerLoop d temp fs).2 ∧
      (∀ pa ∈ (innerLoop d temp fs).1, pa ∈ fs ∨ (pa.1 = d ∧ d ∣ temp)) ∧
      ((fs.map Prod.fst).Nodup →
        prodPow (innerLoop d temp fs).1 * (innerLoop d temp fs).2 = prodPow fs * temp ∧
        ((innerLoop d temp fs).1.map Prod.fst).Nodup) ∧
      ((∀ pa ∈ fs, 1 ≤ pa.2) → ∀ pa ∈ (innerLoop d temp fs).1, 1 ≤ pa.2) := by
  intro temp
  induction temp using Nat.strong_induction_on with
  | _ temp ih =>
    intro fs htemp
    by_cases hmod : temp % d = 0
    · have hdvd : d ∣ temp := Nat.dvd_of_mod_eq_zero hmod
      have hq : 0 < temp / d := Nat.div_pos (Nat.le_of_dvd htemp hdvd) (by omega)
      have hlt : temp / d < temp := Nat.div_lt_self htemp hd
      rw [innerLoop_step fs hd htemp hmod]
      obtain ⟨p1, p2, p3, p4, p5, p6⟩ := ih (temp / d) hlt (dictAdd fs d) hq
      refine ⟨p1, p2.trans (Nat.div_dvd_of_dvd hdvd), p3, ?_, ?_, ?_⟩
      · intro pa hpa
        rcases p4 pa hpa with hmem | hdd
        · rcases mem_dictAdd hmem with h | h
          · exact Or.inl h
          · exact Or.inr ⟨h, hdvd⟩
        · exact Or.inr ⟨hdd.1, hdvd⟩
      · intro hnd
        obtain ⟨hprod, hnd'⟩ := p5 (keys_dictAdd_nodup hnd)
        refine ⟨?_, hnd'⟩
        rw [hprod, prodPow_dictAdd hnd, mul_comm d (prodPow fs), mul_assoc,
          Nat.mul_div_cancel' hdvd]
      · intro hexp
        exact p6 (dictAdd_exp hexp)
    · rw [innerLoop_exit fs hmod]
      exact ⟨htemp, dvd_refl temp,
        fun hc => hmod (Nat.dvd_iff_mod_eq_zero.1 hc),
        fun pa hpa => Or.inl hpa, fun hnd => ⟨rfl, hnd⟩, fun hexp => hexp⟩

/-- A divisor `d ≥ 2` of `temp` is prime as soon as no integer in `[2, d)`
divides `temp`: any proper prime factor of `d` would be such an integer. -/
theorem prime_of_no_smaller_divisor {d temp : ℕ} (hd : 2 ≤ d) (hdvd : d ∣ temp)
    (hsmall : ∀ e, 2 ≤ e → e < d → ¬ e ∣ temp) : d.Prime := by
  have hd1 : d ≠ 1 := by omega
  have hp := Nat.minFac_prime hd1
  have hpd : d.minFac ∣ temp := (Nat.minFac_dvd d).trans hdvd
  have h2 : 2 ≤ d.minFac := hp.two_le
  by_cases hlt : d.minFac < d
  · exact absurd hpd (hsmall _ h2 hlt)
  · have hle : d.minFac ≤ d := Nat.minFac_le (by omega)
    have heq : d.minFac = d := by omega
    exact heq ▸ hp

/-- The leftover value after trial division: if every divisor `e ≥ 2` of
`t` satisfies `t < e * e`, then `t` is `1` or prime. -/
theorem eq_one_or_prime_of_sqrt {t : ℕ} (ht : 0 < t)
    (h : ∀ e, 2 ≤ e → e ∣ t → t < e * e) : t = 1 ∨ t.Prime := by
  by_cases h1 : t = 1
  · exact Or.inl h1
  · right
    have hp := Nat.minFac_prime h1
    have hpd : t.minFac ∣ t := Nat.minFac_dvd t
    have hlt : t < t.minFac * t.minFac := h t.minFac hp.two_le hpd
    have hqd : t / t.minFac ∣ t := Nat.div_dvd_of_dvd hpd
    by_cases hq : t / t.minFac = 1
    · have hcancel : t.minFac * (t / t.minFac) = t := Nat.mul_div_cancel' hpd
      rw [hq, mul_one] at hcancel
      exact hcancel ▸ hp
    · exfalso
      have hq0 : 0 < t / t.minFac := Nat.div_pos (Nat.minFac_le ht) hp.pos
      have h2q : 2 ≤ t / t.minFac := by omega
      have hple : t.minFac ≤ t / t.minFac := Nat.minFac_le_of_dvd h2q hqd
      have hmul : t.minFac * t.minFac ≤ t.minFac * (t / t.minFac) :=
        Nat.mul_le_mul (le_refl _) hple
      rw [Nat.mul_div_cancel' hpd] at hmul
      omega

/-- The full invariant of the outer trial-division loop, by induction on
the variant `temp + 1 - d`: the loop preserves the factor-list invariants,
and on exit no divisor of the remaining value is at most its square root. -/
theorem outerLoop_inv :
    ∀ (m d temp : ℕ) (fs : List (ℕ × ℕ)),
      temp + 1 - d ≤ m → 2 ≤ d → 0 < temp →
      (fs.map Prod.fst).Nodup →
      (∀ pa ∈ fs, pa.1.Prime) →
      (∀ pa ∈ fs, 1 ≤ pa.2) →
      (∀ pa ∈ fs, ¬ pa.1 ∣ temp) →
      (∀ e, 2 ≤ e → e < d → ¬ e ∣ temp) →
      0 < (outerLoop d temp fs).2 ∧
      prodPow (outerLoop d temp fs).1 * (outerLoop d temp fs).2 = prodPow fs * temp ∧
      ((outerLoop d temp fs).1.map Prod.fst).Nodup ∧
      (∀ pa ∈ (outerLoop d temp fs).1, pa.1.Prime) ∧
      (∀ pa ∈ (outerLoop d temp fs).1, 1 ≤ pa.2) ∧
      (∀ pa ∈ (outerLoop d temp fs).1, ¬ pa.1 ∣ (outerLoop d temp fs).2) ∧
      (∀ e, 2 ≤ e → e ∣ (outerLoop d temp fs).2 → (outerLoop d temp fs).2 < e * e) := by
  intro m
  induction m with
  | zero =>
    intro d temp fs hm hd htemp hnd hprime hexp hndvd hsmall
    have hguard : ¬ d * d ≤ temp := by
      intro hdd
      have hdd2 : d ≤ d * d := Nat.le_mul_of_pos_left d (by omega)
      omega
    rw [outerLoop_exit fs hguard]
    refine ⟨htemp, rfl, hnd, hprime, hexp, hndvd, ?_⟩
    intro e he hedvd
    by_cases hed : e < d
    · exact absurd hedvd (hsmall e he hed)
    · have hsq : d * d ≤ e * e := Nat.mul_le_mul (by omega) (by omega)
      omega
  | succ m ihm =>
    intro d temp fs hm hd htemp hnd hprime hexp hndvd hsmall
    by_cases hguard : d * d ≤ temp
    · rw [outerLoop_step fs hguard]
      obtain ⟨q1, q2, q3, q4, q5, q6⟩ := innerLoop_inv d hd temp fs htemp
      obtain ⟨qprod, qnd⟩ := q5 hnd
      have hr2le : (innerLoop d temp fs).2 ≤ temp := innerLoop_snd_le d temp fs
      have hdtemp : d ≤ temp := le_trans (Nat.le_mul_of_pos_left d (by omega)) hguard
      have hprime' : ∀ pa ∈ (innerLoop d temp fs).1, pa.1.Prime := by
        intro pa hpa
        rcases q4 pa hpa with h | ⟨hpd, hdd⟩
        · exact hprime pa h
        · rw [hpd]
          exact prime_of_no_smaller_divisor hd hdd hsmall
      have hexp' : ∀ pa ∈ (innerLoop d temp fs).1, 1 ≤ pa.2 := q6 hexp
      have hndvd' : ∀ pa ∈ (innerLoop d temp fs).1, ¬ pa.1 ∣ (innerLoop d temp fs).2 := by
        intro pa hpa hc
        rcases q4 pa hpa with h | ⟨hpd, _⟩
        · exact hndvd pa h (hc.trans q2)
        · rw [hpd] at hc
          exact q3 hc
      have hsmall' : ∀ e, 2 ≤ e → e < d + 1 → ¬ e ∣ (innerLoop d temp fs).2 := by
        intro e he helt hc
        by_cases hed : e < d
        · exact hsmall e he hed (hc.trans q2)
        · have heq : e = d := by omega
          rw [heq] at hc
          exact q3 hc
      obtain ⟨o1, o2, o3, o4, o5, o6, o7⟩ :=
        ihm (d + 1) (innerLoop d temp fs).2 (innerLoop d temp fs).1
          (by omega) (by omega) q1 qnd hprime' hexp' hndvd' hsmall'
      refine ⟨o1, ?_, o3, o4, o5, o6, o7⟩
      rw [o2, qprod]
    · rw [outerLoop_exit fs hguard]
      refine ⟨htemp, rfl, hnd, hprime, hexp, hndvd, ?_⟩
      intro e he hedvd
      by_cases hed : e < d
      · exact absurd hedvd (hsmall e he hed)
      · have hsq : d * d ≤ e * e := Nat.mul_le_mul (by omega) (by omega)
        omega

/-- Correctness of `_get_prime_factors`: the returned association list
multiplies back to `n`, its keys are distinct primes, and its exponents
are positive. -/
theorem get_prime_factors_spec (n : ℕ) (hn : 1 ≤ n) :
    prodPow (get_prime_factors n) = n ∧
    (∀ pa ∈ get_prime_factors n, pa.1.Prime ∧ 1 ≤ pa.2) ∧
    ((get_prime_factors n).map Prod.fst).Nodup := by
  obtain ⟨o1, o2, o3, o4, o5, o6, o7⟩ :=
    outerLoop_inv (n + 1) 2 n [] (by omega) (by omega) (by omega)
      (by simp) (by simp) (by simp) (by simp) (fun e he hlt => by omega)
  rw [get_prime_factors]
  by_cases ht : 1 < (outerLoop 2 n []).2
  · rw [if_pos ht]
    have htp : (outerLoop 2 n []).2.Prime := by
      rcases eq_one_or_prime_of_sqrt o1 o7 with h | h
      · omega
      · exact h
    have htnotmem : (outerLoop 2 n []).2 ∉ (outerLoop 2 n []).1.map Prod.fst := by
      intro hmem
      obtain ⟨q, hq, hq2⟩ := List.mem_map.1 hmem
      exact o6 q hq (hq2 ▸ dvd_refl _)
    rw [dictAdd_of_not_mem htnotmem]
    refine ⟨?_, ?_, ?_⟩
    · rw [prodPow_append_single, pow_one]
      simpa [prodPow] using o2
    · intro pa hpa
      rcases List.mem_append.1 hpa with h | h
      · exact ⟨o4 pa h, o5 pa h⟩
      · rw [List.mem_singleton.1 h]
        exact ⟨htp, le_refl 1⟩
    · rw [List.map_append]
      simp only [List.map_cons, List.map_nil]
      rw [List.nodup_append]
      refine ⟨o3, List.nodup_singleton _, fun a ha hp => htnotmem ?_⟩
      rw [List.mem_singleton.1 hp] at ha
      exact ha
  · rw [if_neg ht]
    have h1 : (outerLoop 2 n []).2 = 1 := by omega
    rw [h1, mul_one] at o2
    refine ⟨by simpa [prodPow] using o2, fun pa hpa => ⟨o4 pa hpa, o5 pa hpa⟩, o3⟩

/-- For `n = 1` trial division finds nothing and the final leftover is `1`,
so the factor dictionary is empty. -/
theorem get_prime_factors_one : get_prime_factors 1 = [] := by
  rw [get_prime_factors, outerLoop_exit [] (by norm_num)]
  norm_num

/-! ### Correctness of `_calculate_phi` -/

theorem keys_prod_dvd_prodPow (fs : List (ℕ × ℕ)) (hexp : ∀ pa ∈ fs, 1 ≤ pa.2) :
    (fs.map Prod.fst).prod ∣ prodPow fs := by
  induction fs with
  | nil => simp [prodPow]
  | cons pa t ih =>
    rw [List.map_cons, List.prod_cons, prodPow_cons]
    refine mul_dvd_mul (dvd_pow_self pa.1 ?_) (ih fun q hq => hexp q (List.mem_cons_of_mem pa hq))
    have := hexp pa (List.mem_cons_self pa t)
    omega

/-- The `_calculate_phi` fold computes the exact rational value
`r * ∏ (p-1)/p` as long as the product of the listed primes divides the
start value `r`, and every one of its integer divisions is exact. -/
theorem phi_fold_exact (L : List ℕ) :
    ∀ r : ℕ, (∀ p ∈ L, 2 ≤ p) → L.prod ∣ r →
      (L.foldl (fun result p => result * (p - 1) / p) r) * L.prod
          = r * (L.map (fun p => p - 1)).prod ∧
      phiStepsExact L r = true := by
  induction L with
  | nil =>
    intro r _ _
    simp [phiStepsExact]
  | cons p t ih =>
    intro r hge hdvd
    rw [List.prod_cons] at hdvd
    have hp2 : 2 ≤ p := hge p (List.mem_cons_self p t)
    have hpr : p ∣ r := dvd_trans (dvd_mul_right p t.prod) hdvd
    obtain ⟨s, rfl⟩ := hpr
    have hts : t.prod ∣ s := by
      rcases hdvd with ⟨c, hc⟩
      refine ⟨c, Nat.eq_of_mul_eq_mul_left (show 0 < p by omega) ?_⟩
      rw [hc]
      ring
    have hstep : p * s * (p - 1) / p = s * (p - 1) := by
      rw [mul_assoc, Nat.mul_div_cancel_left _ (show 0 < p by omega)]
    have hmod : p * s * (p - 1) % p = 0 := by
      rw [mul_assoc]
      exact Nat.mul_mod_right p _
    obtain ⟨ih1, ih2⟩ := ih (s * (p - 1))
      (fun q hq => hge q (List.mem_cons_of_mem p hq))
      (dvd_trans hts (dvd_mul_right s (p - 1)))
    constructor
    · rw [List.foldl_cons, hstep, List.prod_cons, List.map_cons, List.prod_cons]
      calc (t.foldl (fun result q => result * (q - 1) / q) (s * (p - 1))) * (p * t.prod)
          = p * ((t.foldl (fun result q => result * (q - 1) / q) (s * (p - 1))) * t.prod) := by
            ring
        _ = p * (s * (p - 1) * (t.map (fun q => q - 1)).prod) := by rw [ih1]
        _ = p * s * ((p - 1) * (t.map (fun q => q - 1)).prod) := by ring
    · simp only [phiStepsExact, hmod, hstep, ih2]
      simp

theorem prime_not_dvd_prodPow {p : ℕ} (hp : p.Prime) (fs : List (ℕ × ℕ))
    (hprime : ∀ pa ∈ fs, pa.1.Prime) (hnot : p ∉ fs.map Prod.fst) :
    ¬ p ∣ prodPow fs := by
  induction fs with
  | nil =>
    intro h
    simp only [prodPow, List.map_nil, List.prod_nil] at h
    exact hp.ne_one (Nat.dvd_one.1 h)
  | cons q t ih =>
    rw [prodPow_cons]
    intro hdvd
    rcases (Nat.Prime.dvd_mul hp).1 hdvd with h | h
    · have hpq : p ∣ q.1 := Nat.Prime.dvd_of_dvd_pow hp h
      have hq := hprime q (List.mem_cons_self q t)
      have hpeq : p = q.1 := (Nat.prime_dvd_prime_iff_eq hp hq).1 hpq
      exact hnot (by simp [hpeq])
    · exact ih (fun pa hpa => hprime pa (List.mem_cons_of_mem q hpa))
        (fun hm => hnot (by simp [hm])) h

/-- The totient of a product of distinct prime powers, by multiplicativity. -/
theorem totient_prodPow (fs : List (ℕ × ℕ)) (hprime : ∀ pa ∈ fs, pa.1.Prime)
    (hexp : ∀ pa ∈ fs, 1 ≤ pa.2) (hnd : (fs.map Prod.fst).Nodup) :
    Nat.totient (prodPow fs)
      = (fs.map (fun pa => pa.1 ^ (pa.2 - 1) * (pa.1 - 1))).prod := by
  induction fs with
  | nil => simp [prodPow]
  | cons q t ih =>
    rw [List.map_cons, List.nodup_cons] at hnd
    have hq := hprime q (List.mem_cons_self q t)
    have hcop : Nat.Coprime (q.1 ^ q.2) (prodPow t) := by
      apply Nat.Coprime.pow_left
      rw [Nat.Prime.coprime_iff_not_dvd hq]
      exact prime_not_dvd_prodPow hq t
        (fun pa hpa => hprime pa (List.mem_cons_of_mem q hpa)) hnd.1
    rw [prodPow_cons, Nat.totient_mul hcop,
      Nat.totient_prime_pow hq (hexp q (List.mem_cons_self q t)),
      List.map_cons, List.prod_cons,
      ih (fun pa hpa => hprime pa (List.mem_cons_of_mem q hpa))
        (fun pa hpa => hexp pa (List.mem_cons_of_mem q hpa)) hnd.2]

theorem prodPow_pred_mul_keys (fs : List (ℕ × ℕ)) (hexp : ∀ pa ∈ fs, 1 ≤ pa.2) :
    (fs.map (fun pa => pa.1 ^ (pa.2 - 1) * (pa.1 - 1))).prod * (fs.map Prod.fst).prod
      = prodPow fs * (fs.map (fun pa => pa.1 - 1)).prod := by
  induction fs with
  | nil => simp [prodPow]
  | cons q t ih =>
    simp only [List.map_cons, List.prod_cons, prodPow_cons]
    have ih' := ih (fun pa hpa => hexp pa (List.mem_cons_of_mem q hpa))
    have hq : q.1 ^ (q.2 - 1) * q.1 = q.1 ^ q.2 := by
      have h1 := hexp q (List.mem_cons_self q t)
      conv_rhs => rw [show q.2 = (q.2 - 1) + 1 by omega]
      rw [pow_succ]
    rw [← hq]
    generalize (t.map (fun pa => pa.1 ^ (pa.2 - 1) * (pa.1 - 1))).prod = B at ih' ⊢
    generalize (t.map Prod.fst).prod = K at ih' ⊢
    generalize prodPow t = P at ih' ⊢
    generalize (t.map (fun pa => pa.1 - 1)).prod = D at ih' ⊢
    calc q.1 ^ (q.2 - 1) * (q.1 - 1) * B * (q.1 * K)
        = q.1 ^ (q.2 - 1) * q.1 * (q.1 - 1) * (B * K) := by ring
      _ = q.1 ^ (q.2 - 1) * q.1 * (q.1 - 1) * (P * D) := by rw [ih']
      _ = q.1 ^ (q.2 - 1) * q.1 * P * ((q.1 - 1) * D) := by ring

/-- Correctness of `_calculate_phi`: it computes Euler's totient of `n`. -/
theorem calculate_phi_eq_totient (n : ℕ) (hn : 1 ≤ n) :
    calculate_phi n = Nat.totient n := by
  obtain ⟨hprod, hpe, hnd⟩ := get_prime_factors_spec n hn
  have hprime : ∀ pa ∈ get_prime_factors n, pa.1.Prime := fun pa hpa => (hpe pa hpa).1
  have hexp : ∀ pa ∈ get_prime_factors n, 1 ≤ pa.2 := fun pa hpa => (hpe pa hpa).2
  have hge : ∀ p ∈ (get_prime_factors n).map Prod.fst, 2 ≤ p := by
    intro p hp
    obtain ⟨q, hq, rfl⟩ := List.mem_map.1 hp
    exact (hprime q hq).two_le
  have hdvd : ((get_prime_factors n).map Prod.fst).prod ∣ n := by
    have h := keys_prod_dvd_prodPow (get_prime_factors n) hexp
    rw [hprod] at h
    exact h
  obtain ⟨hfold, _⟩ := phi_fold_exact ((get_prime_factors n).map Prod.fst) n hge hdvd
  have hmap : ((get_prime_factors n).map Prod.fst).map (fun p => p - 1)
      = (get_prime_factors n).map (fun pa => pa.1 - 1) := by
    rw [List.map_map]
    rfl
  have hKpos : 0 < ((get_prime_factors n).map Prod.fst).prod :=
    List.prod_pos (fun p hp => by have := hge p hp; omega)
  apply Nat.eq_of_mul_eq_mul_right hKpos
  have hL : calculate_phi n * ((get_prime_factors n).map Prod.fst).prod
      = n * ((get_prime_factors n).map (fun pa => pa.1 - 1)).prod := by
    rw [← hmap]
    exact hfold
  have htot : Nat.totient n
      = ((get_prime_factors n).map (fun pa => pa.1 ^ (pa.2 - 1) * (pa.1 - 1))).prod := by
    conv_lhs => rw [← hprod]
    exact totient_prodPow (get_prime_factors n) hprime hexp hnd
  have hR : Nat.totient n * ((get_prime_factors n).map Prod.fst).prod
      = n * ((get_prime_factors n).map (fun pa => pa.1 - 1)).prod := by
    rw [htot, prodPow_pred_mul_keys (get_prime_factors n) hexp, hprod]
  rw [hL, hR]

/-! ### Correctness of `_calculate_sigma` -/

theorem sigmaSum_prime_pow {p : ℕ} (hp : p.Prime) (a : ℕ) :
    sigmaSum (p ^ a) = ∑ k ∈ Finset.range (a + 1), p ^ k := by
  rw [sigmaSum, Nat.divisors_prime_pow hp, Finset.sum_map]
  rfl

/-- The divisor sum of a product of distinct prime powers, by
multiplicativity of the sum-of-divisors function. -/
theorem sigmaSum_prodPow (fs : List (ℕ × ℕ)) (hprime : ∀ pa ∈ fs, pa.1.Prime)
    (hnd : (fs.map Prod.fst).Nodup) :
    sigmaSum (prodPow fs)
      = (fs.map (fun pa => ∑ k ∈ Finset.range (pa.2 + 1), pa.1 ^ k)).prod := by
  induction fs with
  | nil => simp [sigmaSum, prodPow]
  | cons q t ih =>
    rw [List.map_cons, List.nodup_cons] at hnd
    have hq := hprime q (List.mem_cons_self q t)
    have hcop : Nat.Coprime (q.1 ^ q.2) (prodPow t) := by
      apply Nat.Coprime.pow_left
      rw [Nat.Prime.coprime_iff_not_dvd hq]
      exact prime_not_dvd_prodPow hq t
        (fun pa hpa => hprime pa (List.mem_cons_of_mem q hpa)) hnd.1
    rw [prodPow_cons,
      show sigmaSum (q.1 ^ q.2 * prodPow t)
          = sigmaSum (q.1 ^ q.2) * sigmaSum (prodPow t) from
        Nat.Coprime.sum_divisors_mul hcop,
      sigmaSum_prime_pow hq, List.map_cons, List.prod_cons,
      ih (fun pa hpa => hprime pa (List.mem_cons_of_mem q hpa)) hnd.2]

/-- Correctness of `_calculate_sigma`: it computes the sum of all positive divisors of `n`. -/
theorem calculate_sigma_eq_sigmaSum (n : ℕ) (hn : 1 ≤ n) :
    calculate_sigma n = sigmaSum n := by
  obtain ⟨hprod, hpe, hnd⟩ := get_prime_factors_spec n hn
  have hprime : ∀ pa ∈ get_prime_factors n, pa.1.Prime := fun pa hpa => (hpe pa hpa).1
  have hfold : calculate_sigma n
      = ((get_prime_factors n).map
          (fun pa => (pa.1 ^ (pa.2 + 1) - 1) / (pa.1 - 1))).prod := by
    rw [List.prod_eq_foldl, List.foldl_map]
    rfl
  have hgeom : (get_prime_factors n).map (fun pa => (pa.1 ^ (pa.2 + 1) - 1) / (pa.1 - 1))
      = (get_prime_factors n).map (fun pa => ∑ k ∈ Finset.range (pa.2 + 1), pa.1 ^ k) := by
    apply List.map_congr_left
    intro pa hpa
    exact (Nat.geomSum_eq (hprime pa hpa).two_le (pa.2 + 1)).symm
  rw [hfold, hgeom, ← sigmaSum_prodPow (get_prime_factors n) hprime hnd, hprod]

/-- Since `n` itself is a divisor, the divisor sum is at least `n`. -/
theorem le_sigmaSum (n : ℕ) (hn : 1 ≤ n) : n ≤ sigmaSum n := by
  rw [sigmaSum]
  exact Finset.single_le_sum (fun d _ => Nat.zero_le d)
    (Nat.mem_divisors_self n (by omega))

theorem sigmaSum_one : sigmaSum 1 = 1 := by
  simp [sigmaSum, Nat.divisors_one]

/-- The totient counts the integers in `[1, n]` coprime to `n` (the
glossary formulation of the spec). -/
theorem totient_eq_coprimeCount (n : ℕ) (hn : 1 ≤ n) :
    Nat.totient n = coprimeCount n := by
  rcases eq_or_lt_of_le hn with h1 | h2
  · rw [← h1]
    decide
  · have hset : (Finset.range n).filter (fun a => Nat.Coprime n a)
        = (Finset.Icc 1 n).filter (fun k => Nat.gcd k n = 1) := by
      ext k
      simp only [Finset.mem_filter, Finset.mem_Icc, Finset.mem_range, Nat.Coprime]
      constructor
      · rintro ⟨hk, hg⟩
        have hg' : Nat.gcd k n = 1 := by
          rw [Nat.gcd_comm]
          exact hg
        refine ⟨⟨?_, by omega⟩, hg'⟩
        by_contra h0
        have hk0 : k = 0 := by omega
        rw [hk0, Nat.gcd_zero_left] at hg'
        omega
      · rintro ⟨⟨hk1, hk2⟩, hg⟩
        refine ⟨?_, by rw [Nat.gcd_comm]; exact hg⟩
        rcases eq_or_lt_of_le hk2 with he | hl
        · exfalso
          rw [he, Nat.gcd_self] at hg
          omega
        · exact hl
    rw [Nat.totient_eq_card_coprime, coprimeCount, hset]

/-! ### Concrete evaluation at the spec scenario `n = 8128` -/

theorem get_prime_factors_8128 : get_prime_factors 8128 = [(2, 6), (127, 1)] := by
  rw [get_prime_factors]
  norm_num [outerLoop_step, outerLoop_exit, innerLoop_step, innerLoop_exit, dictAdd]

theorem calculate_phi_8128 : calculate_phi 8128 = 4032 := by
  rw [calculate_phi, get_prime_factors_8128]
  norm_num

theorem calculate_sigma_8128 : calculate_sigma 8128 = 16256 := by
  rw [calculate_sigma, get_prime_factors_8128]
  norm_num

/-- The ratio `254/63 ≈ 4.0317` is not within relative tolerance `1e-9` of `4`. -/
theorem isClose_ratio_8128 : isClose (254 / 63 : ℚ) 4 = false := by
  rw [isClose]
  simp only [decide_eq_false_iff_not]
  intro h
  rw [show |(254 : ℚ) / 63 - 4| = 2 / 63 by rw [abs_of_nonneg] <;> norm_num] at h
  rw [show |(254 : ℚ) / 63| = 254 / 63 by rw [abs_of_nonneg] <;> norm_num] at h
  rw [show |(4 : ℚ)| = 4 by rw [abs_of_nonneg] <;> norm_num] at h
  rw [max_eq_left (by norm_num : (4 : ℚ) ≤ 254 / 63)] at h
  norm_num at h

theorem make_8128_tpep_ratio :
    (TPEPAnalyzer.make 8128).tpep_ratio = Except.ok (254 / 63 : ℚ) := by
  have hphi : (TPEPAnalyzer.make 8128).phi_val = 4032 := calculate_phi_8128
  have hsig : (TPEPAnalyzer.make 8128).sigma_val = 16256 := calculate_sigma_8128
  rw [TPEPAnalyzer.tpep_ratio, hphi, hsig, if_neg (by norm_num)]
  norm_num [Except.ok.injEq]

theorem make_8128_status :
    (TPEPAnalyzer.make 8128).status = Except.ok "IMPERFECT (Unstable)" := by
  rw [TPEPAnalyzer.status, make_8128_tpep_ratio]
  simp only [Except.map]
  rw [isClose_ratio_8128]
  simp

/-! ### The claims -/

/-- C1: for every integer `n ≥ 1`, the factor mapping computed at
construction is the unique prime factorization of `n`: the product of
`p ^ exponent` over all entries equals `n`, every key is a prime `≥ 2`
(keys pairwise distinct), every exponent is `≥ 1`, and for `n = 1` the
mapping is empty. -/
theorem factors_is_prime_factorization (n : ℕ) (hn : 1 ≤ n) :
    prodPow (get_prime_factors n) = n ∧
    (∀ pa ∈ get_prime_factors n, pa.1.Prime ∧ 2 ≤ pa.1 ∧ 1 ≤ pa.2) ∧
    ((get_prime_factors n).map Prod.fst).Nodup ∧
    (n = 1 → get_prime_factors n = []) := by
  obtain ⟨h1, h2, h3⟩ := get_prime_factors_spec n hn
  exact ⟨h1,
    fun pa hpa => ⟨(h2 pa hpa).1, (h2 pa hpa).1.two_le, (h2 pa hpa).2⟩,
    h3,
    fun he => he ▸ get_prime_factors_one⟩

theorem factors_is_prime_factorization_witness :
    prodPow (get_prime_factors 12) = 12 ∧
    (∀ pa ∈ get_prime_factors 12, pa.1.Prime ∧ 2 ≤ pa.1 ∧ 1 ≤ pa.2) ∧
    ((get_prime_factors 12).map Prod.fst).Nodup ∧
    ((12 : ℕ) = 1 → get_prime_factors 12 = []) :=
  factors_is_prime_factorization 12 (by norm_num)

/-- C2: for every integer `n ≥ 1`, the cached `phi_val` equals Euler's
totient of `n` — the count of integers in `[1, n]` coprime to `n` — and
satisfies `1 ≤ phi ≤ n`, with `phi = 1` when `n = 1`. -/
theorem phi_is_totient (n : ℕ) (hn : 1 ≤ n) :
    calculate_phi n = Nat.totient n ∧
    calculate_phi n = coprimeCount n ∧
    1 ≤ calculate_phi n ∧ calculate_phi n ≤ n ∧
    (n = 1 → calculate_phi n = 1) := by
  have h1 := calculate_phi_eq_totient n hn
  refine ⟨h1, by rw [h1]; exact totient_eq_coprimeCount n hn, ?_, ?_, ?_⟩
  · rw [h1]
    exact Nat.totient_pos.2 (by omega)
  · rw [h1]
    exact Nat.totient_le n
  · intro he
    rw [h1, he]
    exact Nat.totient_one

theorem phi_is_totient_witness :
    calculate_phi 10 = Nat.totient 10 ∧
    calculate_phi 10 = coprimeCount 10 ∧
    1 ≤ calculate_phi 10 ∧ calculate_phi 10 ≤ 10 ∧
    ((10 : ℕ) = 1 → calculate_phi 10 = 1) :=
  phi_is_totient 10 (by norm_num)

/-- C3: for every integer `n ≥ 1`, the cached `sigma_val` equals the sum
of all positive divisors of `n` (including `n` itself), satisfies
`sigma ≥ n`, and equals `1` when `n = 1`. -/
theorem sigma_is_divisor_sum (n : ℕ) (hn : 1 ≤ n) :
    calculate_sigma n = sigmaSum n ∧
    n ≤ calculate_sigma n ∧
    (n = 1 → calculate_sigma n = 1) := by
  have h1 := calculate_sigma_eq_sigmaSum n hn
  exact ⟨h1, by rw [h1]; exact le_sigmaSum n hn,
    fun he => by rw [h1, he]; exact sigmaSum_one⟩

theorem sigma_is_divisor_sum_witness :
    calculate_sigma 10 = sigmaSum 10 ∧
    10 ≤ calculate_sigma 10 ∧
    ((10 : ℕ) = 1 → calculate_sigma 10 = 1) :=
  sigma_is_divisor_sum 10 (by norm_num)

/-- C5: construction fails with the `InvalidArgument` error (carrying the
descriptive message) exactly when `n < 1`, and for every `n ≥ 1` it
succeeds with all derived values fully computed. -/
theorem init_validation (n : ℤ) :
    (n < 1 → TPEPAnalyzer.init n = Except.error "TPEP only applies to positive integers.") ∧
    (1 ≤ n →
      TPEPAnalyzer.init n = Except.ok (TPEPAnalyzer.make n.toNat) ∧
      (TPEPAnalyzer.make n.toNat).n = n ∧
      (TPEPAnalyzer.make n.toNat).factors = get_prime_factors n.toNat ∧
      (TPEPAnalyzer.make n.toNat).phi_val = calculate_phi n.toNat ∧
      (TPEPAnalyzer.make n.toNat).sigma_val = calculate_sigma n.toNat) := by
  constructor
  · intro h
    rw [TPEPAnalyzer.init, if_pos h]
  · intro h
    refine ⟨by rw [TPEPAnalyzer.init, if_neg (by omega)], ?_, rfl, rfl, rfl⟩
    show ((n.toNat : ℤ)) = n
    omega

theorem init_validation_witness :
    TPEPAnalyzer.init 0 = Except.error "TPEP only applies to positive integers." ∧
    TPEPAnalyzer.init (-5) = Except.error "TPEP only applies to positive integers." ∧
    TPEPAnalyzer.init 6 = Except.ok (TPEPAnalyzer.make (6 : ℤ).toNat) :=
  ⟨(init_validation 0).1 (by norm_num),
   (init_validation (-5)).1 (by norm_num),
   ((init_validation 6).2 (by norm_num)).1⟩

/-- C6: on every successfully constructed instance the totient is
positive, so `tpep_ratio` takes its success branch and returns
`sigma / phi`; the `DivisionUndefined` failure branch is exactly the
`phi = 0` case, which is unreachable after construction. -/
theorem tpep_ratio_total_after_init (n : ℤ) (a : TPEPAnalyzer)
    (h : TPEPAnalyzer.init n = Except.ok a) :
    1 ≤ a.phi_val ∧
    a.tpep_ratio = Except.ok ((a.sigma_val : ℚ) / (a.phi_val : ℚ)) ∧
    (∀ x : TPEPAnalyzer, x.phi_val = 0 →
      x.tpep_ratio = Except.error "DivisionUndefined") := by
  have hn : ¬ n < 1 := by
    intro hlt
    rw [TPEPAnalyzer.init, if_pos hlt] at h
    exact Except.noConfusion h
  rw [TPEPAnalyzer.init, if_neg hn] at h
  injection h with h2
  subst h2
  have hm : 1 ≤ n.toNat := by omega
  have hphi : 1 ≤ (TPEPAnalyzer.make n.toNat).phi_val := by
    show 1 ≤ calculate_phi n.toNat
    rw [calculate_phi_eq_totient _ hm]
    exact Nat.totient_pos.2 (by omega)
  refine ⟨hphi, ?_, fun x hx => by rw [TPEPAnalyzer.tpep_ratio, if_pos hx]⟩
  rw [TPEPAnalyzer.tpep_ratio, if_neg (by omega)]

theorem tpep_ratio_total_after_init_witness :
    1 ≤ (TPEPAnalyzer.make (6 : ℤ).toNat).phi_val ∧
    (TPEPAnalyzer.make (6 : ℤ).toNat).tpep_ratio
      = Except.ok (((TPEPAnalyzer.make (6 : ℤ).toNat).sigma_val : ℚ)
          / ((TPEPAnalyzer.make (6 : ℤ).toNat).phi_val : ℚ)) ∧
    (∀ x : TPEPAnalyzer, x.phi_val = 0 →
      x.tpep_ratio = Except.error "DivisionUndefined") :=
  tpep_ratio_total_after_init 6 (TPEPAnalyzer.make (6 : ℤ).toNat)
    (by rw [TPEPAnalyzer.init, if_neg (by norm_num)])

/-- C7: for all coprime integers `a, b ≥ 1` the computed totient and
divisor-sum values are multiplicative. -/
theorem phi_sigma_multiplicative (a b : ℕ) (ha : 1 ≤ a) (hb : 1 ≤ b)
    (hab : Nat.Coprime a b) :
    calculate_phi (a * b) = calculate_phi a * calculate_phi b ∧
    calculate_sigma (a * b) = calculate_sigma a * calculate_sigma b := by
  have hab1 : 1 ≤ a * b := Nat.mul_pos ha hb
  constructor
  · rw [calculate_phi_eq_totient _ hab1, calculate_phi_eq_totient a ha,
      calculate_phi_eq_totient b hb]
    exact Nat.totient_mul hab
  · rw [calculate_sigma_eq_sigmaSum _ hab1, calculate_sigma_eq_sigmaSum a ha,
      calculate_sigma_eq_sigmaSum b hb]
    exact Nat.Coprime.sum_divisors_mul hab

theorem phi_sigma_multiplicative_witness :
    calculate_phi (4 * 9) = calculate_phi 4 * calculate_phi 9 ∧
    calculate_sigma (4 * 9) = calculate_sigma 4 * calculate_sigma 9 :=
  phi_sigma_multiplicative 4 9 (by norm_num) (by norm_num) (by norm_num)

/-- C8: for every `n ≥ 1` the perfection ratio `sigma / n` is at least
`1`, and it equals exactly `2` if and only if `n` is a perfect number
(equivalently, `sigma = 2 * n`). -/
theorem perfection_ratio_spec (n : ℕ) (hn : 1 ≤ n) :
    1 ≤ (TPEPAnalyzer.make n).perfection_ratio ∧
    ((TPEPAnalyzer.make n).perfection_ratio = 2 ↔ calculate_sigma n = 2 * n) ∧
    ((TPEPAnalyzer.make n).perfection_ratio = 2 ↔ Nat.Perfect n) := by
  have hpr : (TPEPAnalyzer.make n).perfection_ratio
      = (calculate_sigma n : ℚ) / (n : ℚ) := by
    rw [TPEPAnalyzer.perfection_ratio]
    show (calculate_sigma n : ℚ) / (((n : ℕ) : ℤ) : ℚ) = _
    push_cast
    ring
  have hpos : (0 : ℚ) < (n : ℚ) := by exact_mod_cast (show 0 < n by omega)
  have hge : 1 ≤ (TPEPAnalyzer.make n).perfection_ratio := by
    rw [hpr, one_le_div hpos]
    have h := le_sigmaSum n hn
    rw [← calculate_sigma_eq_sigmaSum n hn] at h
    exact_mod_cast h
  have hiff : (TPEPAnalyzer.make n).perfection_ratio = 2 ↔ calculate_sigma n = 2 * n := by
    rw [hpr, div_eq_iff (ne_of_gt hpos)]
    constructor
    · intro h
      exact_mod_cast h
    · intro h
      exact_mod_cast h
  refine ⟨hge, hiff, hiff.trans ?_⟩
  rw [calculate_sigma_eq_sigmaSum n hn]
  exact (Nat.perfect_iff_sum_divisors_eq_two_mul (by omega)).symm

theorem perfection_ratio_spec_witness :
    1 ≤ (TPEPAnalyzer.make 28).perfection_ratio ∧
    ((TPEPAnalyzer.make 28).perfection_ratio = 2 ↔ calculate_sigma 28 = 2 * 28) ∧
    ((TPEPAnalyzer.make 28).perfection_ratio = 2 ↔ Nat.Perfect 28) :=
  perfection_ratio_spec 28 (by norm_num)

/-- C10: termination of the factorization loops: one inner iteration
strictly decreases `temp`; the inner loop never increases `temp`; and one
outer iteration strictly decreases the variant `temp + 1 - d`, so the
guard `d * d ≤ temp` fails after finitely many iterations. -/
theorem trial_division_variant (d temp : ℕ) (fs : List (ℕ × ℕ))
    (hd : 2 ≤ d) (ht : 0 < temp) :
    (temp % d = 0 → temp / d < temp) ∧
    (innerLoop d temp fs).2 ≤ temp ∧
    (d * d ≤ temp → (innerLoop d temp fs).2 + 1 - (d + 1) < temp + 1 - d) := by
  refine ⟨fun _ => Nat.div_lt_self ht hd, innerLoop_snd_le d temp fs, fun hdd => ?_⟩
  have hr := innerLoop_snd_le d temp fs
  have hdt : d ≤ temp := le_trans (Nat.le_mul_of_pos_left d (by omega)) hdd
  omega

theorem trial_division_variant_witness :
    ((8 : ℕ) % 2 = 0 → (8 : ℕ) / 2 < 8) ∧
    (innerLoop 2 8 []).2 ≤ 8 ∧
    ((2 : ℕ) * 2 ≤ 8 → (innerLoop 2 8 []).2 + 1 - (2 + 1) < 8 + 1 - 2) :=
  trial_division_variant 2 8 [] (by norm_num) (by norm_num)

/-- C4 counterexample: at `n = 8128` the analyzer's `tpep_ratio` is
`254/63 ≈ 4.0317`, not `4`, and the report classifies the number as
IMPERFECT (Unstable) — refuting the claimed `tpep_ratio = 4.0` and the
claimed stable/perfect classification. -/
theorem tpep_8128_claim_counterexample :
    ¬ ((TPEPAnalyzer.make 8128).tpep_ratio = Except.ok (4 : ℚ) ∧
       (TPEPAnalyzer.make 8128).status = Except.ok "PERFECT (Stable)") := by
  rw [make_8128_tpep_ratio, make_8128_status]
  rintro ⟨h1, h2⟩
  rw [Except.ok.injEq] at h1
  norm_num at h1

/-- C4 amended: for `n = 8128` the analyzer produces `phi = 4032`,
`sigma = 16256`, `perfection_ratio` exactly `2`, but `tpep_ratio` equal to
`254/63 ≈ 4.0317` (not `4`), and the report classifies the number as
IMPERFECT (Unstable). -/
theorem tpep_8128_report :
    TPEPAnalyzer.init 8128 = Except.ok (TPEPAnalyzer.make 8128) ∧
    (TPEPAnalyzer.make 8128).phi_val = 4032 ∧
    (TPEPAnalyzer.make 8128).sigma_val = 16256 ∧
    (TPEPAnalyzer.make 8128).perfection_ratio = 2 ∧
    (TPEPAnalyzer.make 8128).tpep_ratio = Except.ok (254 / 63 : ℚ) ∧
    (TPEPAnalyzer.make 8128).status = Except.ok "IMPERFECT (Unstable)" := by
  refine ⟨?_, calculate_phi_8128, calculate_sigma_8128, ?_,
    make_8128_tpep_ratio, make_8128_status⟩
  · rw [TPEPAnalyzer.init, if_neg (by norm_num)]
    rfl
  · rw [TPEPAnalyzer.perfection_ratio,
      show (TPEPAnalyzer.make 8128).sigma_val = 16256 from calculate_sigma_8128]
    show (16256 : ℚ) / (((8128 : ℕ) : ℤ) : ℚ) = 2
    norm_num

/-- Products of pointwise quotients split into quotients of products. -/
theorem list_prod_div_map (L : List ℕ) (f g : ℕ → ℚ) :
    (L.map (fun x => f x / g x)).prod = (L.map f).prod / (L.map g).prod := by
  induction L with
  | nil => simp
  | cons x t ih => simp [ih, div_mul_div_comm]

/-- C9: every integer division performed by the `_calculate_phi` loop is
exact (at each step `result * (p - 1)` is divisible by `p`), and the final
value equals the exact rational product `n * ∏ (p-1)/p` over the distinct
primes of `n`. -/
theorem phi_divisions_exact (n : ℕ) (hn : 1 ≤ n) :
    phiStepsExact ((get_prime_factors n).map Prod.fst) n = true ∧
    (calculate_phi n : ℚ)
      = n * (((get_prime_factors n).map Prod.fst).map
          (fun p : ℕ => ((p : ℚ) - 1) / (p : ℚ))).prod := by
  obtain ⟨hprod, hpe, hnd⟩ := get_prime_factors_spec n hn
  have hexp : ∀ pa ∈ get_prime_factors n, 1 ≤ pa.2 := fun pa hpa => (hpe pa hpa).2
  have hge : ∀ p ∈ (get_prime_factors n).map Prod.fst, 2 ≤ p := by
    intro p hp
    obtain ⟨q, hq, rfl⟩ := List.mem_map.1 hp
    exact ((hpe q hq).1).two_le
  have hdvd : ((get_prime_factors n).map Prod.fst).prod ∣ n := by
    have h := keys_prod_dvd_prodPow (get_prime_factors n) hexp
    rw [hprod] at h
    exact h
  obtain ⟨hfold, hexact⟩ := phi_fold_exact ((get_prime_factors n).map Prod.fst) n hge hdvd
  refine ⟨hexact, ?_⟩
  set L := (get_prime_factors n).map Prod.fst with hL
  have hBpos : (0 : ℚ) < (L.map (fun p : ℕ => (p : ℚ))).prod := by
    apply List.prod_pos
    intro a ha
    obtain ⟨p, hp, rfl⟩ := List.mem_map.1 ha
    have h2 := hge p hp
    exact_mod_cast (show 0 < p by omega)
  rw [list_prod_div_map L (fun p : ℕ => (p : ℚ) - 1) (fun p : ℕ => (p : ℚ)), ← mul_div_assoc,
    eq_div_iff (ne_of_gt hBpos)]
  have hcastA : (((L.map (fun p => p - 1)).prod : ℕ) : ℚ)
      = (L.map (fun p : ℕ => (p : ℚ) - 1)).prod := by
    rw [Nat.cast_list_prod, List.map_map]
    refine congrArg List.prod (List.map_congr_left ?_)
    intro p hp
    have h2 := hge p hp
    show ((p - 1 : ℕ) : ℚ) = (p : ℚ) - 1
    exact Nat.cast_sub (by omega)
  have hcastB : ((L.prod : ℕ) : ℚ) = (L.map (fun p : ℕ => (p : ℚ))).prod := by
    rw [Nat.cast_list_prod]
  rw [← hcastA, ← hcastB]
  exact_mod_cast hfold

theorem phi_divisions_exact_witness :
    phiStepsExact ((get_prime_factors 12).map Prod.fst) 12 = true ∧
    (calculate_phi 12 : ℚ)
      = 12 * (((get_prime_factors 12).map Prod.fst).map
          (fun p : ℕ => ((p : ℚ) - 1) / (p : ℚ))).prod :=
  phi_divisions_exact 12 (by norm_num)

end TPEP
